import Mathlib

/-!
Verification of the docs-page logic of `rustcost-site`
(`src/features/docs/pages/DocsPage.tsx`).

The TypeScript source is shallowly embedded below: every pure helper of the
page (`slugify`, `normalizeMd`, the heading extraction in `loadDoc`, the
item derivation and sorting of the docs `useEffect`, the toc extraction)
is translated to an executable Lean function over `List Char` / `String`.
JavaScript regular expressions are translated by hand to recursive scanners
that follow the leftmost-match, greedy-with-backtracking semantics of the
concrete pattern being modelled; the reasoning for each such translation is
recorded next to the definition.  JS `\s` and `trim`/`trimStart` use the
JS whitespace set, embedded in `jsWs`.  `String.prototype.localeCompare`
is modelled as code-point lexicographic comparison (`lexLe`), and
`toLowerCase`/`toUpperCase` as the ASCII case maps (`jsToLower`,
`jsToUpper`), which agree with JS on all strings appearing here.
-/

/-- The JS `\s` character class (also the set used by `trim`/`trimStart`):
TAB, LF, VT, FF, CR, SP, NBSP, OGHAM SP, U+2000..U+200A, LS, PS, NNBSP,
MMSP, IDEOGRAPHIC SP, BOM. -/
def jsWs (c : Char) : Bool :=
  c.toNat = 9 || c.toNat = 10 || c.toNat = 11 || c.toNat = 12 || c.toNat = 13 ||
  c.toNat = 32 || c.toNat = 160 || c.toNat = 5760 ||
  (8192 ≤ c.toNat && c.toNat ≤ 8202) ||
  c.toNat = 8232 || c.toNat = 8233 || c.toNat = 8239 || c.toNat = 8287 ||
  c.toNat = 12288 || c.toNat = 65279

/-- JS regex line terminators (what `.` refuses to match and what `^`/`$`
anchor around in multiline mode): LF, CR, LS, PS. -/
def isLineTerm (c : Char) : Bool :=
  c.toNat = 10 || c.toNat = 13 || c.toNat = 8232 || c.toNat = 8233

/-- JS `trim` / trailing part: drop JS whitespace from the end. -/
def dropTrailWs (l : List Char) : List Char :=
  (l.reverse.dropWhile jsWs).reverse

/-- JS `String.prototype.trim`. -/
def jsTrim (l : List Char) : List Char :=
  dropTrailWs (l.dropWhile jsWs)

/-- One-pass scanner for `raw.replace(/\r\n?/g, "\n")`.  The flag records
whether the previous input character was `\r` (in which case a following
`\n` was already consumed by that match and is dropped). -/
def unifyEolAux : Bool → List Char → List Char
  | _, [] => []
  | prevCr, c :: cs =>
    if c = '\r' then '\n' :: unifyEolAux true cs
    else if c = '\n' then
      if prevCr then unifyEolAux false cs else '\n' :: unifyEolAux false cs
    else c :: unifyEolAux false cs

/-- Model of `raw.replace(/\r\n?/g, "\n")`: every CRLF and every lone CR becomes LF. -/
def unifyEol (l : List Char) : List Char :=
  unifyEolAux false l

/-- Model of `s.split("\n")` (JS): list of newline-free segments; `"".split` is `[""]`. -/
def splitNl : List Char → List (List Char)
  | [] => [[]]
  | c :: cs =>
    if c = '\n' then [] :: splitNl cs
    else
      match splitNl cs with
      | [] => [[c]]
      | h :: t => (c :: h) :: t

/-- Model of `lines.join("\n")`. -/
def joinNl : List (List Char) → List Char
  | [] => []
  | [t] => t
  | t :: x :: xs => t ++ '\n' :: joinNl (x :: xs)

/-- Lookahead `(?=\s|$)` of the break-tag regex: end of the line, or a JS
whitespace character next. -/
def okAfter : List Char → Bool
  | [] => true
  | c :: _ => jsWs c

/-- The `\/?>(?=\s|$)` part of the break-tag regex, after `\s*` has taken
the maximal whitespace run: `\/?` succeeds with `/` only when `>` follows
it; the lookahead consumes nothing. -/
def matchBrTail : List Char → Option (List Char)
  | '/' :: '>' :: rem => if okAfter rem then some rem else none
  | '>' :: rem => if okAfter rem then some rem else none
  | _ => none

/-- One attempt of `/<br\s*\/?>(?=\s|$)/i` at the head of the list.
Returns the remainder after the matched tag.  After `<br`, greedy `\s*`
is deterministic: shorter runs leave a whitespace character where `/` or
`>` is required. -/
def matchBr : List Char → Option (List Char)
  | c0 :: c1 :: c2 :: rest =>
    if c0 = '<' && (c1 = 'b' || c1 = 'B') && (c2 = 'r' || c2 = 'R') then
      matchBrTail (rest.dropWhile jsWs)
    else none
  | _ => none

/-- Fuelled scanner for `line.replace(/<br\s*\/?>(?=\s|$)/gi, "\n")`:
leftmost match replaced by `\n`, scanning resumes right after the match
(at the lookahead character).  Fuel is the remaining length. -/
def replaceBrAux : Nat → List Char → List Char
  | 0, l => l
  | _ + 1, [] => []
  | f + 1, c :: cs =>
    match matchBr (c :: cs) with
    | some rem => '\n' :: replaceBrAux f rem
    | none => c :: replaceBrAux f cs

/-- Model of `t.replace(/<br\s*\/?>(?=\s|$)/gi, "\n")`. -/
def replaceBr (l : List Char) : List Char :=
  replaceBrAux l.length l

/-- Model of the fence test on `t.trimStart()`: the line,
leading JS whitespace stripped, begins with three backticks (U+0060). -/
def startsFence (t : List Char) : Bool :=
  match t.dropWhile jsWs with
  | a :: b :: c :: _ => a.toNat = 96 && b.toNat = 96 && c.toNat = 96
  | _ => false

/-- The fence-tracking loop of `normalizeMd`: a fence-delimiter line toggles
the state and passes through; in-fence lines pass through; other lines get
the break-tag substitution. -/
def normLines : Bool → List (List Char) → List (List Char)
  | _, [] => []
  | inFence, t :: ts =>
    if startsFence t then t :: normLines (!inFence) ts
    else if inFence then t :: normLines inFence ts
    else replaceBr t :: normLines inFence ts

/-- The function `normalizeMd` from DocsPage.tsx: unify line endings, split into lines,
run the fence-aware break-tag substitution, re-join with `\n`. -/
def normalizeMd (s : String) : String :=
  String.mk (joinNl (normLines false (splitNl (unifyEol s.data))))

/-- ASCII `toLowerCase`, the fragment of JS `String.prototype.toLowerCase`
relevant here (per code point). -/
def jsToLower (c : Char) : Char :=
  if 65 ≤ c.toNat ∧ c.toNat ≤ 90 then Char.ofNat (c.toNat + 32) else c

/-- ASCII `toUpperCase` (per code point). -/
def jsToUpper (c : Char) : Char :=
  if 97 ≤ c.toNat ∧ c.toNat ≤ 122 then Char.ofNat (c.toNat - 32) else c

/-- Membership in the character class `[a-z0-9\s-]` of `slugify`'s strip
step (the characters that are kept). -/
def keepSlug (c : Char) : Bool :=
  (97 ≤ c.toNat && c.toNat ≤ 122) || (48 ≤ c.toNat && c.toNat ≤ 57) ||
  jsWs c || c.toNat = 45

/-- Model of `replace(/\s+/g, "-")` as a one-pass scanner; the flag records whether
the previous character belonged to a whitespace run already replaced. -/
def collapseWsAux : Bool → List Char → List Char
  | _, [] => []
  | inRun, c :: cs =>
    if jsWs c then
      if inRun then collapseWsAux true cs else '-' :: collapseWsAux true cs
    else c :: collapseWsAux false cs

/-- Model of `replace(/\s+/g, "-")`: each maximal whitespace run becomes one `-`. -/
def collapseWs (l : List Char) : List Char :=
  collapseWsAux false l

/-- The function `slugify` from DocsPage.tsx:
`text.toLowerCase().replace(/[^a-z0-9\s-]/g, "").trim().replace(/\s+/g, "-")`. -/
def slugify (text : String) : String :=
  String.mk (collapseWs (jsTrim ((text.data.map jsToLower).filter keepSlug)))

/-- Code-point lexicographic `≤` on character lists; the model of
`a.localeCompare(b) <= 0` used for the sidebar sort. -/
def lexLe : List Char → List Char → Bool
  | [], _ => true
  | _ :: _, [] => false
  | a :: as, b :: bs =>
    if a.toNat < b.toNat then true
    else if b.toNat < a.toNat then false
    else lexLe as bs

/-- JS `\w` (ASCII letters, digits, underscore), for the `\b\w` of the
fallback-title computation. -/
def isWordChar (c : Char) : Bool :=
  (65 ≤ c.toNat && c.toNat ≤ 90) || (97 ≤ c.toNat && c.toNat ≤ 122) ||
  (48 ≤ c.toNat && c.toNat ≤ 57) || c.toNat = 95

/-- Model of `replace(/\b\w/g, (c) => c.toUpperCase())`: a word character whose
predecessor is not a word character (or start of string) is uppercased.
The flag carries "previous character was a word character". -/
def upWordInit : Bool → List Char → List Char
  | _, [] => []
  | prevW, c :: cs =>
    (if isWordChar c && !prevW then jsToUpper c else c) :: upWordInit (isWordChar c) cs

/-- Model of `displaySlug.replace(/[-_]/g, " ").replace(/\b\w/g, c => c.toUpperCase())`. -/
def fallbackTitle (slug : List Char) : List Char :=
  upWordInit false (slug.map (fun c => if c = '-' ∨ c = '_' then ' ' else c))

/-- The sidebar `order` value: `Number.NEGATIVE_INFINITY`, a parsed numeric
prefix, or `Number.POSITIVE_INFINITY`. -/
inductive DocOrder
  | negInf
  | num (n : Nat)
  | posInf
deriving DecidableEq

/-- The `<` used by the JS comparator `a.order - b.order` on these values. -/
def DocOrder.ltB : DocOrder → DocOrder → Bool
  | .negInf, .negInf => false
  | .negInf, _ => true
  | .num _, .negInf => false
  | .num m, .num n => m < n
  | .num _, .posInf => true
  | .posInf, _ => false

def isDigi (c : Char) : Bool := 48 ≤ c.toNat && c.toNat ≤ 57

def isSep (c : Char) : Bool := c = '_' || c = '-'

/-- Model of `parseInt(digits, 10)` on a short all-digit string. -/
def digitsVal (l : List Char) : Nat :=
  l.foldl (fun acc c => 10 * acc + (c.toNat - 48)) 0

/-- Model of `/^(\d{2,3})[_-](.+)$/.exec(base)`: greedy `\d{2,3}` tries three digits
first, then two; a character cannot be both a digit and `_`/`-`, so at most
one branch can fire.  `(.+)$` needs the remainder nonempty and free of line
terminators (`.` matches neither LF, CR, LS nor PS, and `$` without `m` is
end of string).  Returns (numeric order, remainder). -/
def stemSplit : List Char → Option (Nat × List Char)
  | a :: b :: c :: s :: rest =>
    if isDigi a && isDigi b && isDigi c && isSep s &&
        !rest.isEmpty && rest.all (fun ch => !isLineTerm ch) then
      some (digitsVal [a, b, c], rest)
    else if isDigi a && isDigi b && isSep c &&
        (s :: rest).all (fun ch => !isLineTerm ch) then
      some (digitsVal [a, b], s :: rest)
    else none
  | _ => none

/-- Stem classification of the items derivation: numeric prefix, `index`,
or plain stem.  Yields `(order, displaySlug)`. -/
def stemData (base : List Char) : DocOrder × List Char :=
  match stemSplit base with
  | some (n, r) => (.num n, r)
  | none => if base = "index".data then (.negInf, base) else (.posInf, base)

/-- Model of `k.split("/").pop()!`: the segment after the last `/`. -/
def lastSeg (l : List Char) : List Char :=
  (l.reverse.takeWhile (fun c => c ≠ '/')).reverse

/-- Model of `filename.replace(/\.md$/, "")`. -/
def stripMd (l : List Char) : List Char :=
  match l.reverse with
  | 'd' :: 'm' :: '.' :: r => r.reverse
  | _ => l

/-- One entry of the sidebar `items` array. -/
structure DocItem where
  fileKey : String
  slug : String
  displaySlug : String
  title : String
  order : DocOrder
deriving DecidableEq

/-- The `items` element derived from one glob key. -/
def deriveItem (k : String) : DocItem :=
  let base := stripMd (lastSeg k.data)
  let d := stemData base
  { fileKey := k
    slug := String.mk base
    displaySlug := String.mk d.2
    title := String.mk (fallbackTitle d.2)
    order := d.1 }

/-- The sort relation of
`items.sort((a, b) => a.order === b.order ? a.title.localeCompare(b.title) : a.order - b.order)`:
`a` may precede `b` iff `a.order < b.order`, or the orders are equal and the
locale comparison of the titles is `≤ 0`. -/
def itemR (a b : DocItem) : Prop :=
  DocOrder.ltB a.order b.order = true ∨
    (a.order = b.order ∧ lexLe a.title.data b.title.data = true)

instance : DecidableRel itemR := fun a b =>
  decidable_of_iff (DocOrder.ltB a.order b.order = true ∨
    (a.order = b.order ∧ lexLe a.title.data b.title.data = true)) Iff.rfl

/-- Holds when `p` is a leading run of `k` (model of `k.startsWith(p)`). -/
def leadsWith : List Char → List Char → Bool
  | [], _ => true
  | _ :: _, [] => false
  | p :: ps, c :: cs => p = c && leadsWith ps cs

/-- The enumeration of the docs `useEffect`: filter the known keys to the
language's namespace, derive an item for each, and sort with the JS
comparator.  `Array.prototype.sort` with this consistent comparator is the
stable sort, which `List.insertionSort` also computes. -/
def enumerate (keys : List String) (language : String) : List DocItem :=
  List.insertionSort itemR
    ((keys.filter fun k =>
      leadsWith ("../content/" ++ language ++ "/").data k.data).map deriveItem)

/-- The part of `/^\s*#\s+(.+)$/m` after the `#`, tried at one position:
`\s+` takes the maximal whitespace run; if something follows it, the
capture `(.+)` runs to the next line terminator (and `$` holds there in
multiline mode).  If the run reaches the end of the string, `\s+`
backtracks one character at a time, so the capture becomes the last
non-terminator whitespace character of the run (positions after it are all
terminators, which `.` refuses); the run's first character stays consumed
by `\s+`. -/
def matchAfterHash (l : List Char) : Option (List Char) :=
  let run := l.takeWhile jsWs
  let rest := l.dropWhile jsWs
  if run.isEmpty then none
  else
    match rest with
    | _ :: _ => some (rest.takeWhile (fun c => !isLineTerm c))
    | [] =>
      match (run.drop 1).reverse.find? (fun c => !isLineTerm c) with
      | some c => some [c]
      | none => none

/-- After `\s*`: a literal `#`, then `matchAfterHash`. -/
def matchHashTop : List Char → Option (List Char)
  | '#' :: after => matchAfterHash after
  | _ => none

/-- Model of `/^\s*#\s+(.+)$/m` tried at one anchored position: greedy `\s*` is
deterministic (`#` is not whitespace), then a literal `#`, then
`matchAfterHash`. -/
def matchHash (l : List Char) : Option (List Char) :=
  matchHashTop (l.dropWhile jsWs)

/-- Leftmost-match scan of `/^\s*#\s+(.+)$/m.exec(raw)`: the pattern is
tried at the start of the string and after every line terminator (the
positions where multiline `^` holds), in order; the first success wins. -/
def scanHeading : Bool → List Char → Option (List Char)
  | _, [] => none
  | anchored, c :: cs =>
    (if anchored then matchHash (c :: cs) else none).orElse
      (fun _ => scanHeading (isLineTerm c) cs)

/-- The heading extraction of `loadDoc`:
`/^\s*#\s+(.+)$/m.exec(raw)?.[1].trim()`.  Note it runs on the raw,
pre-normalization text. -/
def extractTitle (raw : String) : Option String :=
  (scanHeading true raw.data).map fun cap => String.mk (jsTrim cap)

/-- One sidebar/outline toc entry (`{ id, text, level }`). -/
structure TocItem where
  id : String
  text : String
  level : Nat
deriving DecidableEq

/-- Model of `/^(#{1,6})\s+(.+)$/.exec(line.trim())` together with the entry
construction of the `toc` memo: on the trimmed line, 1–6 leading `#`
(seven or more make every backtracked attempt fail on the next `#`), one
or more whitespace characters, then a capture that must reach the end of
the string (`$` without `m`), hence must be free of line terminators —
if the capture after the maximal whitespace run contains a terminator,
every shorter `\s+` split contains it too and the whole match fails.
`text` is the capture with backticks (U+0060) removed, trimmed; `id` is
`slugify(text)`. -/
def headingEntry (line : List Char) : Option TocItem :=
  let tl := jsTrim line
  let hs := tl.takeWhile (fun c => c = '#')
  let rest := tl.dropWhile (fun c => c = '#')
  if 1 ≤ hs.length ∧ hs.length ≤ 6 then
    match rest with
    | c :: _ =>
      if jsWs c then
        let cap := rest.dropWhile jsWs
        if !cap.isEmpty && cap.all (fun ch => !isLineTerm ch) then
          let text := String.mk (jsTrim (cap.filter (fun ch => ch.toNat ≠ 96)))
          some { id := slugify text, text := text, level := hs.length }
        else none
      else none
    | [] => none
  else none

/-- The `toc` memo of DocsPage: split the content on `\n`, build one entry
per matching (trimmed) line, in document order. -/
def tocOf (content : String) : List TocItem :=
  (splitNl content.data).filterMap headingEntry

/-- The key `../content/LANGUAGE/DESIRED.md`, the direct-key fallback path. -/
def fallbackPath (language desired : String) : String :=
  "../content/" ++ language ++ "/" ++ desired ++ ".md"

/-- The key-selection logic of the docs `useEffect`: find the item whose
`displaySlug` equals the requested topic; otherwise use the directly
constructed storage key when it exists among the known keys. -/
def resolveKey (keys : List String) (language desired : String) : Option String :=
  match (enumerate keys language).find? (fun i => i.displaySlug == desired) with
  | some i => some i.fileKey
  | none =>
    if fallbackPath language desired ∈ keys then some (fallbackPath language desired)
    else none

/-- The not-found placeholder written by the resolver. -/
def notFound (language desired : String) : String :=
  "# 404\nNot found: " ++ language ++ "/" ++ desired

/-- The content-settling logic of the docs `useEffect`.  `loadRaw` models
the raw-content fetch of `loadDoc`: `none` is a rejected load (the `catch`
branch).  Every path settles to a string; nothing escapes. -/
def resolveContent (keys : List String) (loadRaw : String → Option String)
    (language desired : String) : String :=
  match resolveKey keys language desired with
  | some k =>
    match loadRaw k with
    | some raw => normalizeMd raw
    | none => notFound language desired
  | none => notFound language desired

/-- The module-level document cache: association of keys to the identity of
the promise stored for them, a counter supplying fresh promise identities,
and the log of keys for which the underlying loader has been invoked. -/
structure CacheState where
  cache : List (String × Nat)
  nextId : Nat
  invoked : List String

def CacheState.init : CacheState := ⟨[], 0, []⟩

/-- A `Map.prototype.get`-style lookup in the association list. -/
def lookupC (m : List (String × Nat)) (k : String) : Option Nat :=
  match m with
  | [] => none
  | (k0, v) :: rest => if k0 = k then some v else lookupC rest k

/-- Model of `loadDoc(fileKey)`: an unknown key yields a rejected promise (`none`)
and touches nothing; otherwise a missing cache entry is filled with a fresh
promise (invoking the loader exactly then), and the cached promise is
returned.  JS is single-threaded, so the has/set/get sequence is atomic and
concurrent callers are an arbitrary interleaving of whole `loadDoc` calls. -/
def loadDocM (known : String → Bool) (s : CacheState) (k : String) :
    CacheState × Option Nat :=
  if known k then
    match lookupC s.cache k with
    | some p => (s, some p)
    | none =>
      (⟨(k, s.nextId) :: s.cache, s.nextId + 1, k :: s.invoked⟩, some s.nextId)
  else (s, none)

/-- A sequence of `loadDoc` calls (any interleaving of callers). -/
def runReqs (known : String → Bool) (s : CacheState) (ks : List String) : CacheState :=
  ks.foldl (fun st k => (loadDocM known st k).1) s

/-- State observed from the docs effect: the published content and the
identity of the latest (not-yet-superseded) effect invocation.  Each
invocation's `cancelled` flag is set exactly when a newer invocation
starts (React runs the cleanup first), so "not cancelled" is "latest". -/
structure EffState where
  content : String
  active : Nat

/-- Events of the effect protocol: a new invocation starting (its cleanup
cancels the previous one), or an invocation publishing content (`setContent`
behind its `if (!cancelled)` guard, or the synchronous 404 write which only
a current invocation executes). -/
inductive EffEv
  | start (id : Nat)
  | publish (id : Nat) (v : String)

def effStep (s : EffState) : EffEv → EffState
  | .start i => ⟨s.content, i⟩
  | .publish i v => if i = s.active then ⟨v, s.active⟩ else s

def runEffs (s : EffState) (es : List EffEv) : EffState :=
  es.foldl effStep s

/-- The topic entries published by the effect (`{ slug, title }`). -/
structure Topic where
  slug : String
  title : String
deriving DecidableEq

/-- Stage 1: `items.map(({ displaySlug, title }) => ({ slug: displaySlug, title }))`. -/
def stage1Topics (its : List DocItem) : List Topic :=
  its.map fun i => { slug := i.displaySlug, title := i.title }

/-- Stage 2: the `Promise.all` refinement.  `load k = none` models a
rejected `loadDoc` (the `catch` branch keeps the fallback title);
`load k = some t` models a fulfilled load whose extracted title is `t`
(`doc.title ?? title` keeps the fallback only when the heading was
absent, i.e. `t = none`). -/
def stage2Topics (load : String → Option (Option String)) (its : List DocItem) :
    List Topic :=
  its.map fun i =>
    match load i.fileKey with
    | none => { slug := i.displaySlug, title := i.title }
    | some t => { slug := i.displaySlug, title := t.getD i.title }

/-! ### Spec-side definitions, stated in the spec's own words -/

/-- The spec sentence "if the stem matches
'two-or-three ASCII digits, then `_` or `-`, then remainder', the digits
become `order` (base 10) and the remainder becomes `displaySlug`",
as a predicate: the stem decomposes into two or three ASCII digits, a
separator, and a nonempty remainder (a filename stem lives on one line, so
the remainder carries no line terminator, matching `(.+)$`). -/
def SpecNumbered (stem : List Char) (n : Nat) (rest : List Char) : Prop :=
  ∃ ds sep, stem = ds ++ sep :: rest ∧ (ds.length = 2 ∨ ds.length = 3) ∧
    (∀ c ∈ ds, isDigi c = true) ∧ (sep = '_' ∨ sep = '-') ∧ rest ≠ [] ∧
    (∀ c ∈ rest, isLineTerm c = false) ∧ n = digitsVal ds

/-- One of the inline break markers named by the spec — case-insensitive
`<br>`, `<br/>`, `<br />`. -/
def brTail3 (t : List Char) : Prop :=
  t = ['>'] ∨ t = ['/', '>'] ∨ t = [' ', '/', '>']

def isBrMarker (m : List Char) : Prop :=
  ∃ b r t, (b = 'b' ∨ b = 'B') ∧ (r = 'r' ∨ r = 'R') ∧ brTail3 t ∧
    m = '<' :: b :: r :: t

/-- Claim-side model of C3's title rule, in the claim's words: a line
matches when it consists of one or more leading `#`, then a space, then
(nonempty) text; the matched text is everything after the space. -/
def claimHeadingLine (l : List Char) : Option (List Char) :=
  let hashes := l.takeWhile (fun c => c = '#')
  let rest := l.dropWhile (fun c => c = '#')
  if hashes.isEmpty then none
  else
    match rest with
    | ' ' :: txt => if txt.isEmpty then none else some txt
    | _ => none

/-- Claim-side model of C3's extraction: scan the text top to bottom for
the first matching line; the extracted title is that matched text,
trimmed. -/
def extractTitleClaim (s : String) : Option String :=
  ((splitNl s.data).findSome? claimHeadingLine).map fun t => String.mk (jsTrim t)

/-- Cache invariant: each loader invocation is logged once, and every
logged key has a cache entry. -/
def cacheInv (s : CacheState) : Prop :=
  s.invoked.Nodup ∧ ∀ k ∈ s.invoked, (lookupC s.cache k).isSome = true

/-! ### Ordering lemmas for the sidebar sort -/

theorem lexLe_total : ∀ a b : List Char, lexLe a b = true ∨ lexLe b a = true
  | [], _ => Or.inl rfl
  | _ :: _, [] => Or.inr rfl
  | a :: as, b :: bs => by
    by_cases h1 : a.toNat < b.toNat
    · exact Or.inl (by simp [lexLe, h1])
    · by_cases h2 : b.toNat < a.toNat
      · exact Or.inr (by simp [lexLe, h2])
      · rcases lexLe_total as bs with h | h
        · exact Or.inl (by simp [lexLe, h1, h2, h])
        · exact Or.inr (by simp [lexLe, h1, h2, h])

theorem lexLe_trans : ∀ {a b c : List Char},
    lexLe a b = true → lexLe b c = true → lexLe a c = true
  | [], _, _, _, _ => rfl
  | _ :: _, [], _, h, _ => by simp [lexLe] at h
  | _ :: _, _ :: _, [], _, h => by simp [lexLe] at h
  | a :: as, b :: bs, c :: cs, h1, h2 => by
    rw [lexLe] at h1 h2 ⊢
    by_cases hab : a.toNat < b.toNat
    · by_cases hbc : b.toNat < c.toNat
      · rw [if_pos (Nat.lt_trans hab hbc)]
      · by_cases hcb : c.toNat < b.toNat
        · rw [if_neg hbc, if_pos hcb] at h2; exact absurd h2 (by simp)
        · rw [if_pos (by omega : a.toNat < c.toNat)]
    · by_cases hba : b.toNat < a.toNat
      · rw [if_pos hba] at h1
        rw [if_neg hab] at h1
        exact absurd h1 (by simp)
      · rw [if_neg hab, if_neg hba] at h1
        by_cases hbc : b.toNat < c.toNat
        · rw [if_pos (by omega : a.toNat < c.toNat)]
        · by_cases hcb : c.toNat < b.toNat
          · rw [if_neg hbc, if_pos hcb] at h2; exact absurd h2 (by simp)
          · rw [if_neg hbc, if_neg hcb] at h2
            rw [if_neg (by omega : ¬ a.toNat < c.toNat),
              if_neg (by omega : ¬ c.toNat < a.toNat)]
            exact lexLe_trans h1 h2

theorem DocOrder.ltB_trans : ∀ {x y z : DocOrder},
    ltB x y = true → ltB y z = true → ltB x z = true
  | .negInf, .num _, .num _, _, _ => rfl
  | .negInf, .num _, .posInf, _, _ => rfl
  | .negInf, .posInf, z, _, h2 => by cases z <;> simp [ltB] at h2 ⊢
  | .num m, .num n, .num p, h1, h2 => by
    simp only [ltB, decide_eq_true_eq] at h1 h2 ⊢; omega
  | .num _, .num _, .posInf, _, _ => rfl
  | .num _, .posInf, z, _, h2 => by cases z <;> simp [ltB] at h2
  | .posInf, y, _, h1, _ => by cases y <;> simp [ltB] at h1
  | .negInf, .negInf, _, h1, _ => by simp [ltB] at h1
  | .num _, .negInf, _, h1, _ => by simp [ltB] at h1

theorem DocOrder.eq_of_not_ltB : ∀ {x y : DocOrder},
    ltB x y = false → ltB y x = false → x = y
  | .negInf, .negInf, _, _ => rfl
  | .num m, .num n, h1, h2 => by
    simp only [ltB, decide_eq_false_iff_not] at h1 h2
    have : m = n := by omega
    rw [this]
  | .posInf, .posInf, _, _ => rfl
  | .negInf, .num _, h1, _ => by simp [ltB] at h1
  | .negInf, .posInf, h1, _ => by simp [ltB] at h1
  | .num _, .negInf, _, h2 => by simp [ltB] at h2
  | .num _, .posInf, h1, _ => by simp [ltB] at h1
  | .posInf, .negInf, _, h2 => by simp [ltB] at h2
  | .posInf, .num _, _, h2 => by simp [ltB] at h2

instance : IsTotal DocItem itemR := by
  constructor
  intro a b
  by_cases hab : DocOrder.ltB a.order b.order = true
  · exact Or.inl (Or.inl hab)
  · by_cases hba : DocOrder.ltB b.order a.order = true
    · exact Or.inr (Or.inl hba)
    · have he : a.order = b.order :=
        DocOrder.eq_of_not_ltB (Bool.not_eq_true _ ▸ hab) (Bool.not_eq_true _ ▸ hba)
      rcases lexLe_total a.title.data b.title.data with h | h
      · exact Or.inl (Or.inr ⟨he, h⟩)
      · exact Or.inr (Or.inr ⟨he.symm, h⟩)

instance : IsTrans DocItem itemR := by
  constructor
  intro a b c hab hbc
  rcases hab with h1 | ⟨e1, l1⟩
  · rcases hbc with h2 | ⟨e2, l2⟩
    · exact Or.inl (DocOrder.ltB_trans h1 h2)
    · exact Or.inl (e2 ▸ h1)
  · rcases hbc with h2 | ⟨e2, l2⟩
    · exact Or.inl (e1 ▸ h2)
    · exact Or.inr ⟨e1.trans e2, lexLe_trans l1 l2⟩

theorem isSep_iff {c : Char} : isSep c = true ↔ c = '_' ∨ c = '-' := by
  simp [isSep]

theorem stemSplit_some_iff {stem : List Char} {n : Nat} {rest : List Char} :
    stemSplit stem = some (n, rest) ↔ SpecNumbered stem n rest := by
  constructor
  · intro h
    match stem with
    | [] => simp [stemSplit] at h
    | [_] => simp [stemSplit] at h
    | [_, _] => simp [stemSplit] at h
    | [_, _, _] => simp [stemSplit] at h
    | a :: b :: c :: s :: rest0 =>
      rw [stemSplit] at h
      split_ifs at h with h3 h2
      · simp only [Bool.and_eq_true, Bool.not_eq_true', List.all_eq_true,
          List.isEmpty_eq_false] at h3
        obtain ⟨⟨⟨⟨⟨da, db⟩, dc⟩, ss⟩, hne⟩, hnt⟩ := h3
        have hn : n = digitsVal [a, b, c] := ((Prod.mk.injEq _ _ _ _).mp (Option.some.inj h)).1.symm
        have hr : rest = rest0 := ((Prod.mk.injEq _ _ _ _).mp (Option.some.inj h)).2.symm
        subst hr
        refine ⟨[a, b, c], s, rfl, Or.inr rfl, ?_, isSep_iff.mp ss, hne, hnt, hn⟩
        intro x hx
        rcases List.mem_cons.mp hx with rfl | hx
        · exact da
        rcases List.mem_cons.mp hx with rfl | hx
        · exact db
        rcases List.mem_cons.mp hx with rfl | hx
        · exact dc
        · exact absurd hx (List.not_mem_nil x)
      · simp only [Bool.and_eq_true, List.all_eq_true, Bool.not_eq_true'] at h2
        obtain ⟨⟨⟨da, db⟩, sc⟩, hnt⟩ := h2
        have hn : n = digitsVal [a, b] := ((Prod.mk.injEq _ _ _ _).mp (Option.some.inj h)).1.symm
        have hr : rest = s :: rest0 := ((Prod.mk.injEq _ _ _ _).mp (Option.some.inj h)).2.symm
        subst hr
        refine ⟨[a, b], c, rfl, Or.inl rfl, ?_, isSep_iff.mp sc, by simp, hnt, hn⟩
        intro x hx
        rcases List.mem_cons.mp hx with rfl | hx
        · exact da
        rcases List.mem_cons.mp hx with rfl | hx
        · exact db
        · exact absurd hx (List.not_mem_nil x)
  · rintro ⟨ds, sep, hstem, hlen, hdig, hsep, hne, hnt, hn⟩
    have hsep' : isSep sep = true := isSep_iff.mpr hsep
    obtain ⟨r0, rest', rfl⟩ : ∃ r0 rest', rest = r0 :: rest' := by
      cases rest with
      | nil => exact absurd rfl hne
      | cons r0 rest' => exact ⟨r0, rest', rfl⟩
    have hnt' : (r0 :: rest').all (fun ch => !isLineTerm ch) = true := by
      simp only [List.all_eq_true, Bool.not_eq_true']
      exact hnt
    rcases hlen with hlen | hlen
    · obtain ⟨d0, d1, rfl⟩ := List.length_eq_two.mp hlen
      subst hstem
      have hd0 : isDigi d0 = true := hdig d0 (by simp)
      have hd1 : isDigi d1 = true := hdig d1 (by simp)
      have hsd : isDigi sep = false := by
        rcases hsep with rfl | rfl <;> decide
      simp only [List.cons_append, List.nil_append, stemSplit]
      split_ifs with h3 h2
      · rw [hsd] at h3; simp at h3
      · rw [hn]
      · exfalso; apply h2; rw [hd0, hd1, hsep', hnt']; simp
    · obtain ⟨d0, d1, d2, rfl⟩ := List.length_eq_three.mp hlen
      subst hstem
      have hd0 : isDigi d0 = true := hdig d0 (by simp)
      have hd1 : isDigi d1 = true := hdig d1 (by simp)
      have hd2 : isDigi d2 = true := hdig d2 (by simp)
      simp only [List.cons_append, List.nil_append, stemSplit]
      split_ifs with h3 h2
      · rw [hn]
      · exfalso; apply h3; rw [hd0, hd1, hd2, hsep', hnt']; simp
      · exfalso; apply h3; rw [hd0, hd1, hd2, hsep', hnt']; simp

theorem stemData_num_iff {stem : List Char} {n : Nat} {rest : List Char} :
    stemData stem = (DocOrder.num n, rest) ↔ SpecNumbered stem n rest := by
  constructor
  · intro h
    apply stemSplit_some_iff.mp
    cases hm : stemSplit stem with
    | some p =>
      obtain ⟨p1, p2⟩ := p
      simp only [stemData, hm] at h
      have h1 : DocOrder.num p1 = DocOrder.num n := congrArg Prod.fst h
      have h2 : p2 = rest := congrArg Prod.snd h
      rw [DocOrder.num.inj h1, h2]
    | none =>
      simp only [stemData, hm] at h
      split_ifs at h <;> simp at h
  · intro h
    have hm := stemSplit_some_iff.mpr h
    simp only [stemData, hm]

/-- Claim C1.  For every language, the enumerated document list is derived
and ordered as specified: it is a permutation of the items derived from the
keys under the language's namespace; it is sorted by the relation "smaller
order, or equal order and locale-smaller title"; a stem's `(order,
displaySlug)` is `(digits, remainder)` exactly when the stem matches
"two-or-three ASCII digits, then `_` or `-`, then remainder", is
`(−∞, index)` when it does not match and equals `index`, and `(+∞, stem)`
otherwise; and on `index.md, 001_intro.md, 010-advanced.md, readme.md` the
resolved order is `index, intro, advanced, readme`. -/
theorem claim_C1 :
    (∀ (keys : List String) (language : String),
      (enumerate keys language).Perm
        ((keys.filter fun k =>
          leadsWith ("../content/" ++ language ++ "/").data k.data).map deriveItem) ∧
      (enumerate keys language).Sorted itemR) ∧
    (∀ (stem : List Char) (n : Nat) (rest : List Char),
      stemData stem = (DocOrder.num n, rest) ↔ SpecNumbered stem n rest) ∧
    (∀ stem : List Char, (∀ n rest, ¬ SpecNumbered stem n rest) →
      stemData stem =
        if stem = "index".data then (DocOrder.negInf, stem) else (DocOrder.posInf, stem)) ∧
    (enumerate ["../content/en/index.md", "../content/en/001_intro.md",
      "../content/en/010-advanced.md", "../content/en/readme.md"] "en").map
        (fun i => i.displaySlug) = ["index", "intro", "advanced", "readme"] := by
  refine ⟨fun keys language => ⟨List.perm_insertionSort itemR _,
    List.sorted_insertionSort itemR _⟩, fun stem n rest => stemData_num_iff, ?_, by decide⟩
  intro stem hns
  cases hm : stemSplit stem with
  | some p =>
    obtain ⟨p1, p2⟩ := p
    exact absurd (stemSplit_some_iff.mp hm) (hns p1 p2)
  | none => simp only [stemData, hm]

/-- Concrete instantiation of the hypothesis-bearing parts of `claim_C1`:
`001_intro` is spec-numbered with order 1 and remainder `intro`, and
`readme` (not spec-numbered) classifies as `(+∞, readme)`. -/
theorem claim_C1_witness :
    SpecNumbered "001_intro".data 1 "intro".data ∧
      stemData "readme".data = (DocOrder.posInf, "readme".data) := by
  constructor
  · exact (claim_C1.2.1 "001_intro".data 1 "intro".data).mp (by decide)
  · have hns : ∀ n rest, ¬ SpecNumbered "readme".data n rest := by
      intro n rest hs
      have h := (claim_C1.2.1 "readme".data n rest).mpr hs
      have h' : stemData "readme".data = (DocOrder.posInf, "readme".data) := by decide
      exact DocOrder.noConfusion (congrArg Prod.fst (h'.symm.trans h))
    have h := claim_C1.2.2.1 "readme".data hns
    rw [h]
    decide

/-! ### The normalizer (C2) -/

theorem dwLenLe (p : Char → Bool) : ∀ l : List Char, (l.dropWhile p).length ≤ l.length
  | [] => Nat.le_refl 0
  | c :: cs => by
    rw [List.dropWhile_cons]
    split
    · exact Nat.le_succ_of_le (dwLenLe p cs)
    · exact Nat.le_refl _

theorem matchBrTail_length {l rem : List Char} (h : matchBrTail l = some rem) :
    rem.length < l.length := by
  unfold matchBrTail at h
  split at h
  · split_ifs at h
    cases Option.some.inj h
    simp only [List.length_cons]
    omega
  · split_ifs at h
    cases Option.some.inj h
    simp only [List.length_cons]
    omega
  · exact absurd h (by simp)

theorem matchBr_length {l rem : List Char} (h : matchBr l = some rem) :
    rem.length < l.length := by
  match l with
  | [] => exact absurd h (by simp [matchBr])
  | [_] => exact absurd h (by simp [matchBr])
  | [_, _] => exact absurd h (by simp [matchBr])
  | c0 :: c1 :: c2 :: rest =>
    rw [matchBr] at h
    split_ifs at h
    have h1 := matchBrTail_length h
    have h2 := dwLenLe jsWs rest
    simp only [List.length_cons]
    omega

theorem matchBr_of_ne {c0 : Char} (cs : List Char) (h : c0 ≠ '<') :
    matchBr (c0 :: cs) = none := by
  match cs with
  | [] => rfl
  | [_] => rfl
  | c1 :: c2 :: rest =>
    rw [matchBr]
    rw [if_neg (by simp [h])]

theorem replaceBrAux_nil : ∀ f : Nat, replaceBrAux f [] = []
  | 0 => rfl
  | _ + 1 => rfl

theorem replaceBrAux_congr : ∀ (f g : Nat) (l : List Char), l.length ≤ f → l.length ≤ g →
    replaceBrAux f l = replaceBrAux g l
  | _, _, [], _, _ => by rw [replaceBrAux_nil, replaceBrAux_nil]
  | 0, _, _ :: _, hf, _ => absurd hf (by simp)
  | _ + 1, 0, _ :: _, _, hg => absurd hg (by simp)
  | f + 1, g + 1, c :: cs, hf, hg => by
    cases hm : matchBr (c :: cs) with
    | some rem =>
      have hl : rem.length < cs.length + 1 := matchBr_length hm
      simp only [replaceBrAux, hm]
      rw [replaceBrAux_congr f g rem (by simp at hf; omega) (by simp at hg; omega)]
    | none =>
      simp only [replaceBrAux, hm]
      rw [replaceBrAux_congr f g cs (by simp at hf; omega) (by simp at hg; omega)]

theorem replaceBr_some {l rem : List Char} (h : matchBr l = some rem) :
    replaceBr l = '\n' :: replaceBr rem := by
  match l with
  | [] => exact absurd h (by simp [matchBr])
  | c :: cs =>
    show replaceBrAux (c :: cs).length (c :: cs) = _
    rw [List.length_cons]
    simp only [replaceBrAux, h]
    have hl := matchBr_length h
    rw [replaceBrAux_congr cs.length rem.length rem (by simp at hl; omega) (Nat.le_refl _)]
    rfl

theorem replaceBr_none {c : Char} {cs : List Char} (h : matchBr (c :: cs) = none) :
    replaceBr (c :: cs) = c :: replaceBr cs := by
  show replaceBrAux (c :: cs).length (c :: cs) = _
  rw [List.length_cons]
  simp only [replaceBrAux, h]
  rfl

theorem matchBr_marker {m b : List Char} (hm : isBrMarker m) (hb : okAfter b = true) :
    matchBr (m ++ b) = some b := by
  obtain ⟨bc, rc, t, hbc, hrc, ht, rfl⟩ := hm
  simp only [List.cons_append]
  rw [matchBr]
  rw [if_pos (by rcases hbc with rfl | rfl <;> rcases hrc with rfl | rfl <;> decide)]
  rcases ht with rfl | rfl | rfl
  · simp only [List.cons_append, List.nil_append]
    rw [List.dropWhile_cons, if_neg (by decide)]
    rw [show matchBrTail ('>' :: b) = if okAfter b then some b else none from rfl, if_pos hb]
  · simp only [List.cons_append, List.nil_append]
    rw [List.dropWhile_cons, if_neg (by decide)]
    rw [show matchBrTail ('/' :: '>' :: b) = if okAfter b then some b else none from rfl,
      if_pos hb]
  · simp only [List.cons_append, List.nil_append]
    rw [List.dropWhile_cons, if_pos (by decide), List.dropWhile_cons, if_neg (by decide)]
    rw [show matchBrTail ('/' :: '>' :: b) = if okAfter b then some b else none from rfl,
      if_pos hb]

theorem replaceBr_marker : ∀ (a : List Char) {m b : List Char}, '<' ∉ a → isBrMarker m →
    okAfter b = true → replaceBr (a ++ m ++ b) = a ++ '\n' :: replaceBr b
  | [], m, b, _, hm, hb => by
    simp only [List.nil_append]
    exact replaceBr_some (matchBr_marker hm hb)
  | c :: a', m, b, ha, hm, hb => by
    have hc : c ≠ '<' := by
      intro e
      subst e
      exact ha (List.mem_cons_self _ _)
    have ha' : '<' ∉ a' := fun hmem => ha (List.mem_cons_of_mem c hmem)
    simp only [List.cons_append]
    rw [replaceBr_none (matchBr_of_ne _ hc)]
    have := replaceBr_marker a' ha' hm hb
    simp only [List.cons_append] at this ⊢
    rw [this]

theorem unifyEolAux_no_cr : ∀ (b : Bool) (l : List Char), '\r' ∉ unifyEolAux b l
  | _, [] => by simp [unifyEolAux]
  | b, c :: cs => by
    rw [unifyEolAux]
    by_cases hc : c = '\r'
    · rw [if_pos hc]
      intro hmem
      rcases List.mem_cons.mp hmem with e | hmem
      · exact absurd e (by decide)
      · exact unifyEolAux_no_cr true cs hmem
    · rw [if_neg hc]
      by_cases hn : c = '\n'
      · rw [if_pos hn]
        by_cases hb : b = true
        · rw [if_pos hb]
          exact unifyEolAux_no_cr false cs
        · rw [if_neg hb]
          intro hmem
          rcases List.mem_cons.mp hmem with e | hmem
          · exact absurd e (by decide)
          · exact unifyEolAux_no_cr false cs hmem
      · rw [if_neg hn]
        intro hmem
        rcases List.mem_cons.mp hmem with e | hmem
        · exact hc e.symm
        · exact unifyEolAux_no_cr false cs hmem

theorem unifyEol_no_cr (l : List Char) : '\r' ∉ unifyEol l :=
  unifyEolAux_no_cr false l

theorem unifyEol_id : ∀ {l : List Char}, (∀ c ∈ l, c ≠ '\r') → unifyEol l = l
  | [], _ => rfl
  | c :: cs, h => by
    have hc : c ≠ '\r' := h c (List.mem_cons_self c cs)
    have ih := unifyEol_id (fun x hx => h x (List.mem_cons_of_mem c hx))
    show unifyEolAux false (c :: cs) = c :: cs
    rw [unifyEolAux, if_neg hc]
    by_cases hn : c = '\n'
    · rw [if_pos hn, if_neg (by simp : ¬ false = true)]
      rw [hn]
      exact congrArg _ ih
    · rw [if_neg hn]
      exact congrArg _ ih

theorem normLines_fence {t : List Char} (st : Bool) (ts : List (List Char))
    (h : startsFence t = true) : normLines st (t :: ts) = t :: normLines (!st) ts := by
  rw [normLines, if_pos h]

theorem normLines_inFence {t : List Char} (ts : List (List Char))
    (h : startsFence t = false) : normLines true (t :: ts) = t :: normLines true ts := by
  rw [normLines, if_neg (by simp [h]), if_pos rfl]

theorem normLines_outFence {t : List Char} (ts : List (List Char))
    (h : startsFence t = false) :
    normLines false (t :: ts) = replaceBr t :: normLines false ts := by
  rw [normLines, if_neg (by simp [h]), if_neg (by simp)]

/-- Claim C2.  `normalizeMd` unifies line endings (no `\r` survives; CR-free
text is untouched by the unification), replaces every standalone inline
break marker outside fences with a line break (on a line `a ++ marker ++ b`
where `a` cannot start or continue a tag and the lookahead holds, the
scanner emits `a`, a line break, and the processed `b`), passes
fence-delimiter lines through unmodified while toggling the state, passes
in-fence lines through byte-identically, applies the substitution only
outside fences, and behaves as specified on the spec's example: markers
outside a fence become breaks while a literal `<br>` inside the fence is
unchanged. -/
theorem claim_C2 :
    (∀ s : List Char, '\r' ∉ unifyEol s) ∧
    (∀ s : List Char, (∀ c ∈ s, c ≠ '\r') → unifyEol s = s) ∧
    (∀ a m b : List Char, '<' ∉ a → isBrMarker m → okAfter b = true →
      replaceBr (a ++ m ++ b) = a ++ '\n' :: replaceBr b) ∧
    (∀ (st : Bool) (t : List Char) (ts : List (List Char)), startsFence t = true →
      normLines st (t :: ts) = t :: normLines (!st) ts) ∧
    (∀ (t : List Char) (ts : List (List Char)), startsFence t = false →
      normLines true (t :: ts) = t :: normLines true ts) ∧
    (∀ (t : List Char) (ts : List (List Char)), startsFence t = false →
      normLines false (t :: ts) = replaceBr t :: normLines false ts) ∧
    normalizeMd "Hello<br> world\n```\ncode `<br>` here\n```\nEnd<BR/>" =
      "Hello\n world\n```\ncode `<br>` here\n```\nEnd\n" :=
  ⟨unifyEol_no_cr, fun _ h => unifyEol_id h,
   fun a _ _ ha hm hb => replaceBr_marker a ha hm hb,
   fun st _ ts h => normLines_fence st ts h,
   fun _ ts h => normLines_inFence ts h,
   fun _ ts h => normLines_outFence ts h,
   by decide⟩

/-- Concrete instantiation of the hypothesis-bearing parts of `claim_C2`:
a standalone `<br>` after tag-free text is replaced, CR-free text is left
alone by the line-ending unification, and a non-fence line inside a fence
passes through even though it contains a break marker. -/
theorem claim_C2_witness :
    replaceBr ("x y".data ++ "<br>".data ++ " tail".data) =
      "x y".data ++ '\n' :: replaceBr " tail".data ∧
    unifyEol "abc".data = "abc".data ∧
    normLines true ["code <br> x".data] = ["code <br> x".data] := by
  refine ⟨claim_C2.2.2.1 "x y".data "<br>".data " tail".data (by decide)
      ⟨'b', 'r', ['>'], Or.inl rfl, Or.inl rfl, Or.inl rfl, rfl⟩ (by decide),
    claim_C2.2.1 "abc".data (by decide),
    claim_C2.2.2.2.2.1 "code <br> x".data [] (by decide)⟩

/-! ### Slugify (C9) -/

theorem mem_of_dropWhile {p : Char → Bool} : ∀ {l : List Char} {c : Char},
    c ∈ l.dropWhile p → c ∈ l
  | x :: xs, c, h => by
    rw [List.dropWhile_cons] at h
    split at h
    · exact List.mem_cons_of_mem x (mem_of_dropWhile h)
    · exact h

theorem mem_collapseWsAux : ∀ {b : Bool} {l : List Char} {c : Char},
    c ∈ collapseWsAux b l → c = '-' ∨ (c ∈ l ∧ jsWs c = false)
  | _, [], c, h => absurd h (List.not_mem_nil c)
  | b, x :: xs, c, h => by
    rw [collapseWsAux] at h
    by_cases hx : jsWs x = true
    · rw [if_pos hx] at h
      by_cases hb : b = true
      · rw [if_pos hb] at h
        rcases mem_collapseWsAux h with e | ⟨hm, hw⟩
        · exact Or.inl e
        · exact Or.inr ⟨List.mem_cons_of_mem x hm, hw⟩
      · rw [if_neg hb] at h
        rcases List.mem_cons.mp h with e | h
        · exact Or.inl e
        · rcases mem_collapseWsAux h with e | ⟨hm, hw⟩
          · exact Or.inl e
          · exact Or.inr ⟨List.mem_cons_of_mem x hm, hw⟩
    · rw [if_neg hx] at h
      rcases List.mem_cons.mp h with e | h
      · subst e
        exact Or.inr ⟨List.mem_cons_self c xs, by simpa using hx⟩
      · rcases mem_collapseWsAux h with e | ⟨hm, hw⟩
        · exact Or.inl e
        · exact Or.inr ⟨List.mem_cons_of_mem x hm, hw⟩

theorem collapseWsAux_id : ∀ (b : Bool) {l : List Char}, (∀ c ∈ l, jsWs c = false) →
    collapseWsAux b l = l
  | _, [], _ => rfl
  | b, x :: xs, h => by
    have hx : jsWs x = false := h x (List.mem_cons_self x xs)
    rw [collapseWsAux, if_neg (by simp [hx])]
    exact congrArg _ (collapseWsAux_id false (fun c hc => h c (List.mem_cons_of_mem x hc)))

theorem dropWhile_id {p : Char → Bool} {l : List Char} (h : ∀ c ∈ l, p c = false) :
    l.dropWhile p = l := by
  cases l with
  | nil => rfl
  | cons x xs =>
    rw [List.dropWhile_cons, if_neg (by simp [h x (List.mem_cons_self x xs)])]

theorem jsTrim_id {l : List Char} (h : ∀ c ∈ l, jsWs c = false) : jsTrim l = l := by
  unfold jsTrim dropTrailWs
  rw [dropWhile_id h, dropWhile_id (fun c hc => h c (List.mem_reverse.mp hc)),
    List.reverse_reverse]

theorem map_id_of_fix {f : Char → Char} : ∀ {l : List Char}, (∀ c ∈ l, f c = c) →
    l.map f = l
  | [], _ => rfl
  | c :: cs, h => by
    rw [List.map_cons, h c (List.mem_cons_self c cs),
      map_id_of_fix (fun d hd => h d (List.mem_cons_of_mem c hd))]

theorem jsToLower_fix {c : Char} (hk : keepSlug c = true) (hw : jsWs c = false) :
    jsToLower c = c := by
  have hno : ¬(65 ≤ c.toNat ∧ c.toNat ≤ 90) := by
    simp only [keepSlug, Bool.or_eq_true, Bool.and_eq_true, decide_eq_true_eq] at hk
    rcases hk with ((h | h) | h) | h
    · omega
    · omega
    · rw [h] at hw
      exact absurd hw (by simp)
    · omega
  rw [jsToLower, if_neg hno]

/-- Every character of a `slugify` output is kept by the strip step and is
not whitespace. -/
theorem slugify_chars {x : String} {c : Char} (h : c ∈ (slugify x).data) :
    keepSlug c = true ∧ jsWs c = false := by
  have h' : c ∈ collapseWsAux false (jsTrim ((x.data.map jsToLower).filter keepSlug)) := h
  rcases mem_collapseWsAux h' with e | ⟨hm, hw⟩
  · subst e
    exact ⟨by decide, by decide⟩
  · have hm' : c ∈ (x.data.map jsToLower).filter keepSlug := by
      unfold jsTrim dropTrailWs at hm
      exact mem_of_dropWhile (List.mem_reverse.mp (mem_of_dropWhile (List.mem_reverse.mp hm)))
    exact ⟨(List.mem_filter.mp hm').2, hw⟩

theorem slugify_idem (x : String) : slugify (slugify x) = slugify x := by
  have hfix : ∀ c ∈ (slugify x).data, jsToLower c = c := fun c hc =>
    jsToLower_fix (slugify_chars hc).1 (slugify_chars hc).2
  have hkeep : ∀ c ∈ (slugify x).data, keepSlug c = true := fun c hc =>
    (slugify_chars hc).1
  have hws : ∀ c ∈ (slugify x).data, jsWs c = false := fun c hc =>
    (slugify_chars hc).2
  show String.mk
    (collapseWs (jsTrim (((slugify x).data.map jsToLower).filter keepSlug))) = slugify x
  rw [map_id_of_fix hfix, List.filter_eq_self.mpr (fun c hc => hkeep c hc),
    jsTrim_id hws]
  show String.mk (collapseWsAux false (slugify x).data) = slugify x
  rw [collapseWsAux_id false hws]

/-- Claim C9.  `slugify` behaves as specified on the spec's examples, and is
idempotent on every string. -/
theorem claim_C9 :
    slugify "Hello, World! 2.0" = "hello-world-20" ∧
    slugify "  multi   space  " = "multi-space" ∧
    ∀ x : String, slugify (slugify x) = slugify x :=
  ⟨by decide, by decide, slugify_idem⟩

/-! ### Outline extraction (C8) -/

theorem splitNl_ne_nil : ∀ l : List Char, splitNl l ≠ []
  | [] => by simp [splitNl]
  | c :: cs => by
    rw [splitNl]
    split_ifs
    · simp
    · cases h : splitNl cs with
      | nil => simp
      | cons hd tl => simp

theorem splitNl_append : ∀ (a b : List Char),
    splitNl (a ++ '\n' :: b) = splitNl a ++ splitNl b
  | [], b => by rfl
  | c :: a', b => by
    by_cases hc : c = '\n'
    · subst hc
      show [] :: splitNl (a' ++ '\n' :: b) = ([] :: splitNl a') ++ splitNl b
      rw [splitNl_append a' b]
      rfl
    · show splitNl (c :: (a' ++ '\n' :: b)) = splitNl (c :: a') ++ splitNl b
      rw [splitNl, if_neg hc, splitNl, if_neg hc, splitNl_append a' b]
      cases h : splitNl a' with
      | nil => exact absurd h (splitNl_ne_nil a')
      | cons hd tl => rfl

theorem splitNl_no_nl : ∀ {l : List Char}, (∀ c ∈ l, c ≠ '\n') → splitNl l = [l]
  | [], _ => rfl
  | c :: cs, h => by
    rw [splitNl, if_neg (h c (List.mem_cons_self c cs)),
      splitNl_no_nl (fun d hd => h d (List.mem_cons_of_mem c hd))]

/-- Claim C8.  The outline extractor is line-local: the outline of
`a ++ "\n" ++ b` is the outline of `a` followed by the outline of `b`
(document order, no filtering or deduplication across lines, fenced lines
not exempted); a single line contributes exactly the entry `headingEntry`
gives it; and the spec's example extracts
`[(1, Title, title), (2, Sub code Heading, sub-code-heading)]`. -/
theorem claim_C8 :
    (∀ a b : List Char, tocOf (String.mk (a ++ '\n' :: b)) =
      tocOf (String.mk a) ++ tocOf (String.mk b)) ∧
    (∀ l : List Char, (∀ c ∈ l, c ≠ '\n') →
      tocOf (String.mk l) = (headingEntry l).toList) ∧
    tocOf "# Title\n\nSome text\n## Sub `code` Heading\n" =
      [{ id := "title", text := "Title", level := 1 },
       { id := "sub-code-heading", text := "Sub code Heading", level := 2 }] := by
  refine ⟨?_, ?_, by decide⟩
  · intro a b
    show (splitNl (a ++ '\n' :: b)).filterMap headingEntry = _
    rw [splitNl_append, List.filterMap_append]
    rfl
  · intro l h
    show (splitNl l).filterMap headingEntry = _
    rw [splitNl_no_nl h]
    cases he : headingEntry l <;> simp [he]

/-- Concrete instantiation of the hypothesis-bearing part of `claim_C8`:
a single newline-free line (here a level-2 heading) contributes exactly
its own entry. -/
theorem claim_C8_witness :
    tocOf (String.mk "## H2 x".data) = (headingEntry "## H2 x".data).toList :=
  claim_C8.2.1 "## H2 x".data (by decide)

/-! ### Title extraction (C3) -/

theorem matchAfterHash_at (t0 : Char) (t1 rest : List Char)
    (ht0 : jsWs t0 = false) (hterm : ∀ c ∈ t0 :: t1, isLineTerm c = false) :
    matchAfterHash (' ' :: ((t0 :: t1) ++ '\n' :: rest)) = some (t0 :: t1) := by
  show matchAfterHash (' ' :: t0 :: (t1 ++ '\n' :: rest)) = some (t0 :: t1)
  have hrun : List.takeWhile jsWs (' ' :: t0 :: (t1 ++ '\n' :: rest)) = [' '] := by
    rw [List.takeWhile_cons, if_pos (by decide), List.takeWhile_cons, if_neg (by simp [ht0])]
  have hdrop : List.dropWhile jsWs (' ' :: t0 :: (t1 ++ '\n' :: rest)) =
      t0 :: (t1 ++ '\n' :: rest) := by
    rw [List.dropWhile_cons, if_pos (by decide), List.dropWhile_cons, if_neg (by simp [ht0])]
  have hcap : List.takeWhile (fun c => !isLineTerm c) (t0 :: (t1 ++ '\n' :: rest)) =
      t0 :: t1 := by
    rw [← List.cons_append,
      List.takeWhile_append_of_pos (by
        intro a ha
        simp [hterm a ha]),
      List.takeWhile_cons, if_neg (by decide), List.append_nil]
  simp only [matchAfterHash, hrun, hdrop, hcap]
  rfl

theorem matchHashTop_of_ne {d : Char} {ds : List Char} (h : d ≠ '#') :
    matchHashTop (d :: ds) = none := by
  unfold matchHashTop
  split
  · rename_i heq
    exact absurd (List.cons.inj heq).1 h
  · rfl

theorem matchHash_at (t0 : Char) (t1 rest : List Char)
    (ht0 : jsWs t0 = false) (hterm : ∀ c ∈ t0 :: t1, isLineTerm c = false) :
    matchHash ('#' :: ' ' :: ((t0 :: t1) ++ '\n' :: rest)) = some (t0 :: t1) := by
  unfold matchHash
  rw [List.dropWhile_cons, if_neg (by decide)]
  exact matchAfterHash_at t0 t1 rest ht0 hterm

theorem matchHash_pre {q : List Char} (hq : ∀ c ∈ q, c ≠ '#')
    (t0 : Char) (t1 rest : List Char)
    (ht0 : jsWs t0 = false) (hterm : ∀ c ∈ t0 :: t1, isLineTerm c = false) :
    matchHash (q ++ '#' :: ' ' :: ((t0 :: t1) ++ '\n' :: rest)) = some (t0 :: t1) ∨
      matchHash (q ++ '#' :: ' ' :: ((t0 :: t1) ++ '\n' :: rest)) = none := by
  unfold matchHash
  rw [List.dropWhile_append]
  by_cases he : (q.dropWhile jsWs).isEmpty
  · rw [if_pos he]
    left
    rw [List.dropWhile_cons, if_neg (by decide)]
    exact matchAfterHash_at t0 t1 rest ht0 hterm
  · rw [if_neg he]
    right
    cases hd : q.dropWhile jsWs with
    | nil => rw [hd] at he; simp at he
    | cons d ds =>
      have hdq : d ∈ q := by
        apply mem_of_dropWhile (p := jsWs)
        rw [hd]
        exact List.mem_cons_self d ds
      have hdn : d ≠ '#' := hq d hdq
      rw [List.cons_append]
      exact matchHashTop_of_ne hdn

theorem scanHeading_pre (t0 : Char) (t1 rest : List Char)
    (ht0 : jsWs t0 = false) (hterm : ∀ c ∈ t0 :: t1, isLineTerm c = false) :
    ∀ (q : List Char) (anch : Bool), (∀ c ∈ q, c ≠ '#') →
      (q = [] → anch = true) → (∀ h, q.getLast? = some h → h = '\n') →
      scanHeading anch (q ++ '#' :: ' ' :: ((t0 :: t1) ++ '\n' :: rest)) = some (t0 :: t1)
  | [], anch, _, ha, _ => by
    rw [List.nil_append, ha rfl]
    have hm := matchHash_at t0 t1 rest ht0 hterm
    rw [scanHeading, hm]
    rfl
  | c :: q', anch, hq, _, hl => by
    have hq' : ∀ x ∈ q', x ≠ '#' := fun x hx => hq x (List.mem_cons_of_mem c hx)
    have hrec : scanHeading (isLineTerm c)
        (q' ++ '#' :: ' ' :: ((t0 :: t1) ++ '\n' :: rest)) = some (t0 :: t1) :=
      scanHeading_pre t0 t1 rest ht0 hterm q' (isLineTerm c) hq'
        (fun hq'e => by
          subst hq'e
          have hc : c = '\n' := hl c (by simp)
          rw [hc]
          decide)
        (fun h hh => hl h (by
          cases q' with
          | nil => exact absurd hh (by simp)
          | cons y ys =>
            rw [List.getLast?_cons_cons]
            exact hh))
    show scanHeading anch (c :: (q' ++ '#' :: ' ' :: ((t0 :: t1) ++ '\n' :: rest))) = _
    rw [scanHeading]
    have hpm := matchHash_pre (q := c :: q') hq t0 t1 rest ht0 hterm
    rw [List.cons_append] at hpm
    by_cases hanch : anch = true
    · rw [if_pos hanch]
      rcases hpm with hs | hn
      · rw [hs]
        rfl
      · rw [hn]
        show scanHeading (isLineTerm c)
          (q' ++ '#' :: ' ' :: ((t0 :: t1) ++ '\n' :: rest)) = some (t0 :: t1)
        exact hrec
    · rw [if_neg hanch]
      show scanHeading (isLineTerm c)
        (q' ++ '#' :: ' ' :: ((t0 :: t1) ++ '\n' :: rest)) = some (t0 :: t1)
      exact hrec

/-- Claim C3, amended.  The title extraction runs on the raw,
pre-normalization text, and only single-`#` headings qualify: in a document
`pre ++ "# " ++ t ++ "\n" ++ rest` whose prefix `pre` contains no `#` and
ends at a line boundary, the extracted title is `t` trimmed (for `t`
nonempty, starting with a non-whitespace character, free of line
terminators); and on `"## A\n# B<br>\n# C"` the extracted title is
`"B<br>"`: the level-2 heading does not qualify, and the raw text is
scanned, so the `<br>` that normalization would have replaced is kept. -/
theorem claim_C3_amended :
    (∀ (pre t1 rest : List Char) (t0 : Char),
      (∀ c ∈ pre, c ≠ '#') → (pre = [] ∨ pre.getLast? = some '\n') →
      jsWs t0 = false → (∀ c ∈ t0 :: t1, isLineTerm c = false) →
      extractTitle (String.mk (pre ++ '#' :: ' ' :: ((t0 :: t1) ++ '\n' :: rest))) =
        some (String.mk (jsTrim (t0 :: t1)))) ∧
    extractTitle "## A\n# B<br>\n# C" = some "B<br>" := by
  refine ⟨?_, by decide⟩
  intro pre t1 rest t0 hpre hlast ht0 hterm
  have hla : ∀ h, pre.getLast? = some h → h = '\n' := by
    intro h hh
    rcases hlast with he | hl'
    · subst he
      exact absurd hh (by simp)
    · rw [hl'] at hh
      exact (Option.some.inj hh).symm
  unfold extractTitle
  show (scanHeading true (pre ++ '#' :: ' ' :: ((t0 :: t1) ++ '\n' :: rest))).map
      (fun cap => String.mk (jsTrim cap)) = some (String.mk (jsTrim (t0 :: t1)))
  rw [scanHeading_pre t0 t1 rest ht0 hterm pre true hpre (fun _ => rfl) hla]
  rfl

/-- Claim C3 counterexample.  On the document `"## A\n# B<br>\n# C"`, the
claim's rule — scan the normalized text for the first line made of one or
more `#`, a space, then text — extracts `"A"`, but the code extracts
`"B<br>"`: `loadDoc` only accepts a single `#` (`/^\s*#\s+(.+)$/m`) and
runs on the raw text. -/
theorem claim_C3_counterexample :
    extractTitleClaim (normalizeMd "## A\n# B<br>\n# C") = some "A" ∧
    extractTitle "## A\n# B<br>\n# C" = some "B<br>" ∧
    extractTitle "## A\n# B<br>\n# C" ≠
      extractTitleClaim (normalizeMd "## A\n# B<br>\n# C") :=
  ⟨by decide, by decide, by decide⟩

/-- Concrete instantiation of the hypothesis-bearing part of
`claim_C3_amended`: a `#`-free first line, then `# Title ok`, then a body. -/
theorem claim_C3_witness :
    extractTitle (String.mk ("intro text\n".data ++
        '#' :: ' ' :: (('T' :: "itle ok".data) ++ '\n' :: "body".data))) =
      some (String.mk (jsTrim ('T' :: "itle ok".data))) :=
  claim_C3_amended.1 "intro text\n".data "itle ok".data "body".data 'T'
    (by decide) (Or.inr (by decide)) (by decide) (by decide)

/-! ### The document cache (C4) -/

theorem lookupC_mono (known : String → Bool) {s : CacheState} {k : String} {v : Nat}
    (req : String) (h : lookupC s.cache k = some v) :
    lookupC ((loadDocM known s req).1).cache k = some v := by
  unfold loadDocM
  by_cases hk : known req
  · rw [if_pos hk]
    cases hl : lookupC s.cache req with
    | some p => exact h
    | none =>
      show lookupC ((req, s.nextId) :: s.cache) k = some v
      rw [lookupC, if_neg ?hne]
      · exact h
      case hne =>
        intro e
        rw [e, h] at hl
        exact Option.noConfusion hl
  · rw [if_neg hk]
    exact h

theorem lookupC_mono_runReqs (known : String → Bool) :
    ∀ (ks : List String) (s : CacheState) {k : String} {v : Nat},
      lookupC s.cache k = some v → lookupC (runReqs known s ks).cache k = some v
  | [], _, _, _, h => h
  | r :: rs, s, k, v, h => lookupC_mono_runReqs known rs _ (lookupC_mono known r h)

theorem cacheInv_step (known : String → Bool) {s : CacheState} (h : cacheInv s)
    (req : String) : cacheInv ((loadDocM known s req).1) := by
  unfold loadDocM
  by_cases hk : known req
  · rw [if_pos hk]
    cases hl : lookupC s.cache req with
    | some p => exact h
    | none =>
      constructor
      · rw [List.nodup_cons]
        refine ⟨?_, h.1⟩
        intro hmem
        have hs := h.2 req hmem
        rw [hl] at hs
        exact Bool.noConfusion hs
      · intro k hk2
        rcases List.mem_cons.mp hk2 with rfl | hk3
        · show (lookupC ((k, s.nextId) :: s.cache) k).isSome = true
          rw [lookupC, if_pos rfl]
          rfl
        · have hs := h.2 k hk3
          show (lookupC ((req, s.nextId) :: s.cache) k).isSome = true
          rw [lookupC]
          by_cases he : req = k
          · rw [if_pos he]
            rfl
          · rw [if_neg he]
            exact hs
  · rw [if_neg hk]
    exact h

theorem cacheInv_runReqs (known : String → Bool) :
    ∀ (ks : List String) (s : CacheState), cacheInv s → cacheInv (runReqs known s ks)
  | [], _, h => h
  | r :: rs, s, h => cacheInv_runReqs known rs _ (cacheInv_step known h r)

/-- Claim C4.  The cache is populated lazily and never evicted nor
overwritten: across any sequence of `loadDoc` calls the loader is invoked
at most once per key; once a key's entry is written it survives every
later call unchanged; and a repeated call for a known key returns the same
promise as the first (the in-flight/settled promise is shared). -/
theorem claim_C4 :
    (∀ (known : String → Bool) (ks : List String) (k : String),
      (runReqs known CacheState.init ks).invoked.count k ≤ 1) ∧
    (∀ (known : String → Bool) (s : CacheState) (ks : List String) (k : String) (v : Nat),
      lookupC s.cache k = some v → lookupC (runReqs known s ks).cache k = some v) ∧
    (∀ (known : String → Bool) (s : CacheState) (k : String), known k = true →
      (loadDocM known ((loadDocM known s k).1) k).2 = (loadDocM known s k).2 ∧
        ((loadDocM known s k).2).isSome = true) := by
  refine ⟨?_, fun known s ks k v h => lookupC_mono_runReqs known ks s h, ?_⟩
  · intro known ks k
    have hinv : cacheInv (runReqs known CacheState.init ks) :=
      cacheInv_runReqs known ks CacheState.init
        ⟨List.nodup_nil, fun _ hm => absurd hm (List.not_mem_nil _)⟩
    exact List.nodup_iff_count_le_one.mp hinv.1 k
  · intro known s k hk
    unfold loadDocM
    rw [if_pos hk, if_pos hk]
    cases hl : lookupC s.cache k with
    | some p => simp [hl]
    | none =>
      have h2 : lookupC ((k, s.nextId) :: s.cache) k = some s.nextId := by
        rw [lookupC, if_pos rfl]
      simp [hl, h2]

/-- Concrete instantiation of the hypothesis-bearing parts of `claim_C4`:
an existing entry for key "a" survives two further requests, and a repeat
request for a known key returns the same promise. -/
theorem claim_C4_witness :
    lookupC (runReqs (fun k => k == "a" || k == "b") ⟨[("a", 0)], 1, ["a"]⟩
      ["a", "b"]).cache "a" = some 0 ∧
    ((loadDocM (fun k => k == "a") ((loadDocM (fun k => k == "a")
        CacheState.init "a").1) "a").2 =
      (loadDocM (fun k => k == "a") CacheState.init "a").2 ∧
      ((loadDocM (fun k => k == "a") CacheState.init "a").2).isSome = true) :=
  ⟨claim_C4.2.1 (fun k => k == "a" || k == "b") ⟨[("a", 0)], 1, ["a"]⟩
      ["a", "b"] "a" 0 rfl,
    claim_C4.2.2 (fun k => k == "a") CacheState.init "a" rfl⟩

/-! ### Superseded requests (C5) -/

theorem runEffs_append : ∀ (es : List EffEv) (s : EffState) (fs : List EffEv),
    runEffs s (es ++ fs) = runEffs (runEffs s es) fs
  | [], _, _ => rfl
  | e :: es, s, fs => runEffs_append es (effStep s e) fs

theorem runEffs_publishes_ne {b : Nat} :
    ∀ (ds : List EffEv) (s : EffState), s.active = b →
      (∀ e ∈ ds, ∃ i v, e = EffEv.publish i v ∧ i ≠ b) → runEffs s ds = s
  | [], _, _, _ => rfl
  | d :: ds, s, ha, hds => by
    obtain ⟨i, v, rfl, hib⟩ := hds d (List.mem_cons_self d ds)
    show runEffs (effStep s (.publish i v)) ds = s
    have hstep : effStep s (.publish i v) = s := by
      show (if i = s.active then ({ content := v, active := s.active } : EffState) else s) = s
      rw [if_neg (by rw [ha]; exact hib)]
    rw [hstep]
    exact runEffs_publishes_ne ds s ha (fun e he => hds e (List.mem_cons_of_mem _ he))

/-- Claim C5.  A superseded request never overwrites newer state: in any run
that starts request `b` (cancelling everything before it) and then delivers
any interleaving of stale writes from superseded requests around `b`'s
single content write, the final published content is `b`'s. -/
theorem claim_C5 :
    ∀ (s0 : EffState) (head pre post : List EffEv) (b : Nat) (vb : String),
      (∀ e ∈ pre, ∃ i v, e = EffEv.publish i v ∧ i ≠ b) →
      (∀ e ∈ post, ∃ i v, e = EffEv.publish i v ∧ i ≠ b) →
      (runEffs s0 (head ++ EffEv.start b ::
        (pre ++ EffEv.publish b vb :: post))).content = vb := by
  intro s0 head pre post b vb hpre hpost
  rw [runEffs_append]
  generalize runEffs s0 head = s1
  show (runEffs ⟨s1.content, b⟩ (pre ++ EffEv.publish b vb :: post)).content = vb
  rw [runEffs_append]
  rw [runEffs_publishes_ne pre ⟨s1.content, b⟩ rfl hpre]
  have hstep : effStep ⟨s1.content, b⟩ (EffEv.publish b vb) = ⟨vb, b⟩ := by
    show (if b = b then ({ content := vb, active := b } : EffState)
      else ⟨s1.content, b⟩) = ⟨vb, b⟩
    simp
  show (runEffs (effStep ⟨s1.content, b⟩ (EffEv.publish b vb)) post).content = vb
  rw [hstep, runEffs_publishes_ne post ⟨vb, b⟩ rfl hpost]

/-- Concrete instantiation of `claim_C5`: request 0 starts and publishes,
request 1 supersedes it; 0's stale writes land both before and after 1's
write; the final content is request 1's. -/
theorem claim_C5_witness :
    (runEffs ⟨"", 0⟩ ([EffEv.start 0, EffEv.publish 0 "topic a"] ++
      EffEv.start 1 :: ([EffEv.publish 0 "stale a"] ++
        EffEv.publish 1 "topic b" :: [EffEv.publish 0 "stale a2"]))).content =
      "topic b" :=
  claim_C5 ⟨"", 0⟩ [EffEv.start 0, EffEv.publish 0 "topic a"]
    [EffEv.publish 0 "stale a"] [EffEv.publish 0 "stale a2"] 1 "topic b"
    (by
      intro e he
      rcases List.mem_cons.mp he with rfl | he
      · exact ⟨0, "stale a", rfl, by decide⟩
      · exact absurd he (List.not_mem_nil _))
    (by
      intro e he
      rcases List.mem_cons.mp he with rfl | he
      · exact ⟨0, "stale a2", rfl, by decide⟩
      · exact absurd he (List.not_mem_nil _))

/-! ### Direct-key fallback and the 404 placeholder (C6, C7) -/

/-- Claim C6.  When no enumerated entry's `displaySlug` equals the requested
topic but the directly constructed key `../content/lang/topic.md` is among
the known keys, the resolver selects that key, and the resolved content is
that document's (normalized) content. -/
theorem claim_C6 :
    ∀ (keys : List String) (loadRaw : String → Option String)
      (language desired raw : String),
      (∀ i ∈ enumerate keys language, i.displaySlug ≠ desired) →
      fallbackPath language desired ∈ keys →
      resolveKey keys language desired = some (fallbackPath language desired) ∧
      (loadRaw (fallbackPath language desired) = some raw →
        resolveContent keys loadRaw language desired = normalizeMd raw) := by
  intro keys loadRaw language desired raw hne hmem
  have hfind : (enumerate keys language).find? (fun i => i.displaySlug == desired) = none := by
    rw [List.find?_eq_none]
    intro x hx
    simp [hne x hx]
  have hkey : resolveKey keys language desired = some (fallbackPath language desired) := by
    unfold resolveKey
    rw [hfind]
    rw [if_pos hmem]
  refine ⟨hkey, fun hload => ?_⟩
  unfold resolveContent
  rw [hkey]
  show (match loadRaw (fallbackPath language desired) with
    | some raw => normalizeMd raw
    | none => notFound language desired) = normalizeMd raw
  rw [hload]

/-- Concrete instantiation of `claim_C6`: topic `001_intro` is not any
entry's `displaySlug` (the file's slug is `intro`), yet the literal key
exists and is selected. -/
theorem claim_C6_witness :
    resolveKey ["../content/en/001_intro.md"] "en" "001_intro" =
      some (fallbackPath "en" "001_intro") :=
  (claim_C6 ["../content/en/001_intro.md"] (fun _ => some "# T") "en" "001_intro" "# T"
    (by decide) (by decide)).1

/-- Claim C7.  Whenever no key resolves, or the document load fails, the
resolver settles (it is a total function — nothing escapes it) to the
literal not-found placeholder, and on language `en`, topic `bogus` the
content is exactly `"# 404\nNot found: en/bogus"`. -/
theorem claim_C7 :
    (∀ (keys : List String) (loadRaw : String → Option String) (language desired : String),
      resolveKey keys language desired = none →
      resolveContent keys loadRaw language desired = notFound language desired) ∧
    (∀ (keys : List String) (loadRaw : String → Option String)
      (language desired k : String),
      resolveKey keys language desired = some k → loadRaw k = none →
      resolveContent keys loadRaw language desired = notFound language desired) ∧
    resolveContent ["../content/en/index.md"] (fun _ => some "# Hi") "en" "bogus" =
      "# 404\nNot found: en/bogus" := by
  refine ⟨?_, ?_, by decide⟩
  · intro keys loadRaw language desired h
    unfold resolveContent
    rw [h]
  · intro keys loadRaw language desired k h hl
    unfold resolveContent
    rw [h]
    show (match loadRaw k with
      | some raw => normalizeMd raw
      | none => notFound language desired) = notFound language desired
    rw [hl]

/-- Concrete instantiation of the hypothesis-bearing parts of `claim_C7`:
a failed load of the resolved `index` key yields the placeholder, and an
unresolvable topic over an empty key set yields the placeholder. -/
theorem claim_C7_witness :
    resolveContent ["../content/en/index.md"] (fun _ => none) "en" "index" =
      notFound "en" "index" ∧
    resolveContent [] (fun _ => some "x") "en" "bogus" = notFound "en" "bogus" :=
  ⟨claim_C7.2.1 ["../content/en/index.md"] (fun _ => none) "en" "index"
      "../content/en/index.md" (by decide) rfl,
    claim_C7.1 [] (fun _ => some "x") "en" "bogus" (by decide)⟩

/-! ### Stage-2 republish (C10) -/

/-- Claim C10.  The stage-2 republish keeps the stage-1 slugs in the same
order regardless of load outcomes, and an entry whose load fails keeps its
fallback title. -/
theorem claim_C10 :
    (∀ (load : String → Option (Option String)) (its : List DocItem),
      (stage2Topics load its).map Topic.slug = (stage1Topics its).map Topic.slug) ∧
    (∀ (load : String → Option (Option String)) (its : List DocItem) (i : Nat)
      (it : DocItem), its[i]? = some it → load it.fileKey = none →
      (stage2Topics load its)[i]? =
        some { slug := it.displaySlug, title := it.title }) := by
  constructor
  · intro load its
    unfold stage2Topics stage1Topics
    rw [List.map_map, List.map_map]
    apply List.map_congr_left
    intro a _
    simp only [Function.comp_apply]
    cases load a.fileKey <;> rfl
  · intro load its i it hit hload
    unfold stage2Topics
    rw [List.getElem?_map, hit, Option.map_some']
    show some (match load it.fileKey with
      | none => ({ slug := it.displaySlug, title := it.title } : Topic)
      | some t => { slug := it.displaySlug, title := t.getD it.title }) =
      some { slug := it.displaySlug, title := it.title }
    rw [hload]

/-- Concrete instantiation of the hypothesis-bearing part of `claim_C10`:
a failing load keeps the derived fallback title of `001_intro.md`. -/
theorem claim_C10_witness :
    (stage2Topics (fun _ => none) [deriveItem "../content/en/001_intro.md"])[0]? =
      some { slug := (deriveItem "../content/en/001_intro.md").displaySlug,
             title := (deriveItem "../content/en/001_intro.md").title } :=
  claim_C10.2 (fun _ => none) [deriveItem "../content/en/001_intro.md"] 0
    (deriveItem "../content/en/001_intro.md") (by decide) rfl
